import Mathlib

/-!
# Verification of the budget-buddy scraping service core

Shallow embedding of the two core components of the repository's single
source module (a Hono web-scraper): the `fetchRobots` robots.txt
parser/evaluator and the `extractData` regex-based structural extractor,
together with the `/scrape` handler's path computation.

Strings are modelled as Lean `String`/`List Char`; the JavaScript regex
scans are embedded as explicit character-level scanners that follow the
concrete patterns of the source (leftmost match, greedy character classes,
lazy bodies, case-insensitive literals), recursing structurally on the
input.  The `while`-loops the source drives by `RegExp.exec`, and the
global tag replacement, are embedded as fuel-indexed recursions whose
top-level wrappers supply fuel `length + 1`; this is sufficient because
every loop iteration, and every replaced tag, consumes at least one
character of the input.
-/

set_option maxRecDepth 2000

/-- Model of the JavaScript whitespace class (`\s`, `String.prototype.trim`)
restricted to the ASCII whitespace characters; the exotic Unicode members
of the JS class (NBSP, BOM, …) are outside the model. -/
def jsWs (c : Char) : Bool :=
  c = ' ' || c = '\t' || c = '\n' || c = '\r' || c = '\x0b' || c = '\x0c'

/-- Drop leading and trailing whitespace from a character list
(model of `String.prototype.trim`). -/
def jsTrimList (l : List Char) : List Char :=
  ((l.dropWhile jsWs).reverse.dropWhile jsWs).reverse

/-- Model of `String.prototype.trim`. -/
def jsTrim (s : String) : String := ⟨jsTrimList s.data⟩

/-- Case-insensitive equality of strings, modelling a case-insensitive
regex literal test such as `/^User-agent$/i.test(k)` (ASCII folding). -/
def ciEq (a b : String) : Bool :=
  a.data.map Char.toLower == b.data.map Char.toLower

/-- Model of `txt.split(/\r?\n/)`: split at every `\n`, additionally
consuming a `\r` immediately before the `\n`; a lone `\r` does not split.
`acc` is the current token accumulated in reverse. -/
def splitRNLines (acc : List Char) : List Char → List (List Char)
  | [] => [acc.reverse]
  | '\n' :: rest =>
      (match acc with
       | '\r' :: a => a.reverse
       | _ => acc.reverse) :: splitRNLines [] rest
  | c :: rest => splitRNLines (c :: acc) rest

/-- Model of `line.split(':', 2).map(s => s.trim())` followed by
`v = vRaw ?? ''`: the key is the text before the first colon, the value is
the text strictly between the first and the second colon (or the whole
remainder when there is no second colon), both trimmed; a line without a
colon yields the empty value. -/
def splitColon2 (l : List Char) : String × String :=
  match l.span (fun c => c != ':') with
  | (k, []) => (jsTrim ⟨k⟩, "")
  | (k, _ :: rest) => (jsTrim ⟨k⟩, jsTrim ⟨(rest.span (fun c => c != ':')).1⟩)

/-- A JavaScript number produced by `Number(v)` on a numeric string,
represented exactly as a scaled decimal `num * 10 ^ exp` (the source only
stores and returns the value, so exact decimals model the IEEE doubles
faithfully on the strings of interest). -/
structure JsNum where
  num : Int
  exp : Int
deriving DecidableEq

/-- Semantic value of a `JsNum` as a rational. -/
def JsNum.toRat (n : JsNum) : ℚ := (n.num : ℚ) * (10 : ℚ) ^ n.exp

/-- Numeric value of a digit character in radices up to 16 (`99` when the
character is not a digit of any supported radix). -/
def hexVal (c : Char) : Nat :=
  if c.isDigit then c.toNat - '0'.toNat
  else if 'a' ≤ c ∧ c ≤ 'f' then 10 + (c.toNat - 'a'.toNat)
  else if 'A' ≤ c ∧ c ≤ 'F' then 10 + (c.toNat - 'A'.toNat)
  else 99

/-- Value of a digit string in radix `r`. -/
def radixVal (r : Nat) (ds : List Char) : Nat :=
  ds.foldl (fun a c => a * r + hexVal c) 0

/-- Parse a radix-prefixed literal body (after `0x`, `0o` or `0b`). -/
def parseRadix (r : Nat) (ds : List Char) : Option JsNum :=
  if ds ≠ [] ∧ ds.all (fun c => hexVal c < r) then some ⟨radixVal r ds, 0⟩
  else none

/-- Parse a signed decimal literal with optional fraction and exponent,
per the `StringNumericLiteral` grammar used by `Number(v)`. -/
def parseDec (l : List Char) : Option JsNum :=
  let sp : Int × List Char :=
    match l with
    | '+' :: r => (1, r)
    | '-' :: r => (-1, r)
    | _ => (1, l)
  let ipRest := sp.2.span Char.isDigit
  let fpRest : List Char × List Char :=
    match ipRest.2 with
    | '.' :: rf => rf.span Char.isDigit
    | _ => ([], ipRest.2)
  if ipRest.1 = [] ∧ fpRest.1 = [] then none
  else
    let mant : Int :=
      sp.1 * ((radixVal 10 ipRest.1) * 10 ^ fpRest.1.length + radixVal 10 fpRest.1)
    match fpRest.2 with
    | [] => some ⟨mant, -(fpRest.1.length : Int)⟩
    | e :: r3 =>
      if e = 'e' ∨ e = 'E' then
        let esp : Int × List Char :=
          match r3 with
          | '+' :: r => (1, r)
          | '-' :: r => (-1, r)
          | _ => (1, r3)
        let eds := esp.2.span Char.isDigit
        if eds.1 ≠ [] ∧ eds.2 = [] then
          some ⟨mant, esp.1 * (radixVal 10 eds.1) - (fpRest.1.length : Int)⟩
        else none
      else none

/-- Model of JavaScript `Number(v)` on the string values reaching the
`Crawl-delay` branch: the empty string converts to `0`; decimal literals
with optional sign, fraction and exponent, and unsigned `0x`/`0o`/`0b`
radix literals convert to their value; anything else (the model leaves
`Infinity` outside its scope) is `NaN`, rendered here as `none`. -/
def jsNumber (s : String) : Option JsNum :=
  let l := jsTrimList s.data
  match l with
  | [] => some ⟨0, 0⟩
  | '0' :: x :: rest =>
    if x = 'x' ∨ x = 'X' then parseRadix 16 rest
    else if x = 'o' ∨ x = 'O' then parseRadix 8 rest
    else if x = 'b' ∨ x = 'B' then parseRadix 2 rest
    else parseDec l
  | _ => parseDec l

/-- Robots-parse loop state of `fetchRobots`: the `inStar` flag plus the
accumulated `disallows` and the current `crawlDelay`. -/
structure RState where
  inStar : Bool
  disallows : List String
  crawlDelay : Option JsNum
deriving DecidableEq

/-- Processing of one (already trimmed) robots.txt line, embedding the
body of the `for (const line of lines)` loop of `fetchRobots`. -/
def robotsStep (st : RState) (line : String) : RState :=
  if line = "" ∨ line.data.head? = some '#' then st
  else if ciEq (splitColon2 line.data).1 "User-agent" then
    { st with inStar := decide ((splitColon2 line.data).2 = "*") }
  else if st.inStar = false then st
  else if ciEq (splitColon2 line.data).1 "Disallow" then
    if (splitColon2 line.data).2 ≠ "" then
      { st with disallows := st.disallows ++ [(splitColon2 line.data).2] }
    else st
  else if ciEq (splitColon2 line.data).1 "Crawl-delay" then
    match jsNumber (splitColon2 line.data).2 with
    | some n => { st with crawlDelay := some n }
    | none => st
  else st

/-- Run the robots parsing loop of `fetchRobots` over a robots.txt body:
split into lines, trim each, then fold the per-line step from the initial
state (`inStar = false`, no disallows, no crawl delay). -/
def parseRobots (txt : String) : RState :=
  ((splitRNLines [] txt.data).map (fun l => jsTrim ⟨l⟩)).foldl robotsStep
    ⟨false, [], none⟩

/-- The policy data captured by the closure `fetchRobots` returns:
the disallow prefixes and the optional crawl delay. -/
structure RobotsPolicy where
  disallows : List String
  crawlDelay : Option JsNum
deriving DecidableEq

/-- Model of `path.startsWith(d)`. -/
def jsStartsWith (s d : String) : Bool := d.data.isPrefixOf s.data

/-- The loop inside the `allowed` closure of `fetchRobots`: scan the
disallow entries in order, skip empty ones, return `false` on the first
entry that is a prefix of the path, `true` when none matches. -/
def allowedLoop (path : String) : List String → Bool
  | [] => true
  | d :: rest =>
    if d = "" then allowedLoop path rest
    else if jsStartsWith path d then false
    else allowedLoop path rest

/-- The `allowed` closure of `fetchRobots` applied to a path. -/
def robotsAllowed (pol : RobotsPolicy) (path : String) : Bool :=
  allowedLoop path pol.disallows

/-- The policy obtained by parsing a robots.txt body (the success branch
of `fetchRobots`). -/
def policyOfText (txt : String) : RobotsPolicy :=
  ⟨(parseRobots txt).disallows, (parseRobots txt).crawlDelay⟩

/-- Outcome of the robots.txt retrieval as observed by `fetchRobots`:
either some exception was thrown during the fetch or the body read — any
exception lands in the `catch` — or a response with `ok` flag and body. -/
inductive FetchOutcome where
  | failure
  | response (ok : Bool) (body : String)

/-- The function `fetchRobots` of the retrieval outcome: exceptions and
non-`ok` responses yield the permissive policy (no disallows, no crawl
delay — the source returns a constant-`true` closure with the `crawlDelay`
field absent); an `ok` response is parsed. -/
def fetchRobots : FetchOutcome → RobotsPolicy
  | .failure => ⟨[], none⟩
  | .response ok body => if ok then policyOfText body else ⟨[], none⟩

/-- The components of the parsed target URL used by the `/scrape`
handler (`targetUrl.pathname`, `targetUrl.search`, `targetUrl.hash`). -/
structure JsUrlParts where
  pathname : String
  search : String
  hash : String
deriving DecidableEq

/-- The path the handler tests against the robots policy:
`targetUrl.pathname + (targetUrl.search || '')` (line 133 of the source;
`search` is the empty string or starts with `?`, and `'' || ''` is `''`). -/
def requestPath (u : JsUrlParts) : String :=
  u.pathname ++ (if u.search = "" then "" else u.search)

/-- Case-insensitive literal pattern match at the head of a string:
`stripCI pat s` returns the remainder of `s` after `pat` when `s` begins
with `pat` up to ASCII case. -/
def stripCI : List Char → List Char → Option (List Char)
  | [], s => some s
  | _ :: _, [] => none
  | p :: ps, c :: cs => if p.toLower = c.toLower then stripCI ps cs else none

/-- Lazy-body scan `([\s\S]*?)` followed by a literal closing pattern:
return the shortest body such that `close` (case-insensitively) follows,
with the remainder after `close`. -/
def splitUntilCI (close : List Char) : List Char → Option (List Char × List Char)
  | [] => (stripCI close []).map (fun r => (([] : List Char), r))
  | c :: cs =>
    match stripCI close (c :: cs) with
    | some rest => some ([], rest)
    | none => (splitUntilCI close cs).map (fun p => (c :: p.1, p.2))

/-- One pass of the global replacement `replace(/<[^>]+>/g, '')` of
`stripTags`: at a `<`, a maximal nonempty run of non-`>` characters
followed by `>` is a tag and is removed; otherwise the engine moves one
character forward. -/
def removeTags : Nat → List Char → List Char
  | 0, l => l
  | _ + 1, [] => []
  | fuel + 1, '<' :: rest =>
    (match rest.span (fun c => c != '>') with
     | (tag, '>' :: after) =>
       if tag = [] then '<' :: removeTags fuel rest
       else removeTags fuel after
     | _ => '<' :: removeTags fuel rest)
  | fuel + 1, c :: rest => c :: removeTags fuel rest

/-- Model of `replace(/\s+/g, ' ')`: every maximal whitespace run becomes
one space; `prev` records whether the previous character was whitespace. -/
def collapseWs : List Char → Bool → List Char
  | [], _ => []
  | c :: rest, prev =>
    if jsWs c then
      if prev then collapseWs rest true else ' ' :: collapseWs rest true
    else c :: collapseWs rest false

/-- The shared `stripTags` helper of the source: remove every `<...>`
tag, collapse whitespace runs to single spaces, trim. -/
def stripTags (l : List Char) : String :=
  ⟨jsTrimList (collapseWs (removeTags (l.length + 1) l) false)⟩

/-- Attempt the title pattern `<title[^>]*>([\s\S]*?)<\/title>` (flag `i`)
at the head of `s`, returning the raw body group. -/
def matchTitleAt (s : List Char) : Option (List Char) :=
  match stripCI "<title".data s with
  | none => none
  | some r1 =>
    match r1.span (fun c => c != '>') with
    | (_, '>' :: r2) => (splitUntilCI "</title>".data r2).map (fun p => p.1)
    | _ => none

/-- Leftmost title match: the scan of `html.match(/<title.../i)` — try the
pattern at the current position, else advance one character. -/
def findTitle : List Char → Option (List Char)
  | [] => none
  | c :: rest =>
    match matchTitleAt (c :: rest) with
    | some body => some body
    | none => findTitle rest

/-- Attempt the heading pattern `<(h[1-3])[^>]*>([\s\S]*?)<\/\1>`
(flags `gi`) at the head of `s`: the closing tag must repeat the captured
level digit.  Returns the raw body and the remainder after the match. -/
def matchHeadingAt (s : List Char) : Option (List Char × List Char) :=
  match s with
  | '<' :: c1 :: c2 :: rest =>
    if c1.toLower = 'h' ∧ (c2 = '1' ∨ c2 = '2' ∨ c2 = '3') then
      match rest.span (fun c => c != '>') with
      | (_, '>' :: r2) => splitUntilCI ['<', '/', 'h', c2, '>'] r2
      | _ => none
    else none
  | _ => none

/-- Scan for the next heading match from the current position
(`RegExp.exec` with the `g` flag searches forward from `lastIndex`). -/
def findNextHeading : List Char → Option (List Char × List Char)
  | [] => none
  | c :: rest =>
    match matchHeadingAt (c :: rest) with
    | some p => some p
    | none => findNextHeading rest

/-- The heading collection loop
`while ((hMatch = hRegex.exec(html)) && headings.length < 5)`:
each match contributes its tag-stripped body. -/
def collectHeadings : Nat → List Char → List String → List String
  | 0, _, acc => acc
  | fuel + 1, s, acc =>
    match findNextHeading s with
    | none => acc
    | some (body, rest) =>
      if acc.length ≥ 5 then acc
      else collectHeadings fuel rest (acc ++ [stripTags body])

/-- The href value class `[^"'\s>]`. -/
def isHrefValChar (c : Char) : Bool :=
  !(c = '"' || c = '\'' || jsWs c || c = '>')

/-- Attempt the regex fragment `href=(["']?)([^"'\s>]+)\1` at the head of
`l`: the engine first lets group 1 capture a quote; when that alternative
fails, group 1 captures the empty string, which can only succeed when the
next character is a value character (in particular not a quote). -/
def tryHrefAt (l : List Char) : Option String :=
  match stripCI "href=".data l with
  | none => none
  | some [] => none
  | some (q :: r2) =>
    if q = '"' ∨ q = '\'' then
      match r2.span isHrefValChar with
      | (v, c :: _) => if v ≠ [] ∧ c = q then some ⟨v⟩ else none
      | (_, []) => none
    else
      match (q :: r2).span isHrefValChar with
      | (v, _) => if v ≠ [] then some ⟨v⟩ else none

/-- Backtracking of the greedy `[^>]*` before `href=`: the engine commits
to the rightmost position inside the tag run at which the href fragment
succeeds. -/
def findLastHref : List Char → Option String
  | [] => none
  | c :: rest =>
    match findLastHref rest with
    | some v => some v
    | none => tryHrefAt (c :: rest)

/-- Attempt the anchor pattern
`<a\s+[^>]*href=(["']?)([^"'\s>]+)\1[^>]*>([\s\S]*?)<\/a>` (flags `gi`)
at the head of `s`: `<a` must be followed by a whitespace character, the
attribute region is the maximal non-`>` run (which must be closed by `>`),
the href fragment must succeed somewhere in that run, and the lazy body
extends to the earliest `</a>`.  Returns the raw href value, the raw body
and the remainder after the match. -/
def matchAnchorAt (s : List Char) : Option (String × List Char × List Char) :=
  match stripCI "<a".data s with
  | none => none
  | some [] => none
  | some (w :: r1) =>
    if jsWs w then
      match (w :: r1).span (fun c => c != '>') with
      | (run, '>' :: r2) =>
        match findLastHref run with
        | some href =>
          match splitUntilCI "</a>".data r2 with
          | some (body, rest) => some (href, body, rest)
          | none => none
        | none => none
      | _ => none
    else none

/-- Scan for the next anchor match from the current position. -/
def findNextAnchor : List Char → Option (String × List Char × List Char)
  | [] => none
  | c :: rest =>
    match matchAnchorAt (c :: rest) with
    | some m => some m
    | none => findNextAnchor rest

/-- A collected link candidate (`{ href, text }` in the source). -/
structure LinkEntry where
  href : String
  text : String
deriving DecidableEq

/-- Scheme characters per the URL standard. -/
def isSchemeChar (c : Char) : Bool :=
  c.isAlpha || c.isDigit || c = '+' || c = '-' || c = '.'

/-- Parse a leading `scheme:`; the scheme must start with a letter.
Returns the lowercased scheme and the remainder after the colon. -/
def parseScheme (l : List Char) : Option (String × List Char) :=
  match l with
  | [] => none
  | c :: _ =>
    if c.isAlpha then
      match l.span isSchemeChar with
      | (sch, ':' :: rest) => some (⟨sch.map Char.toLower⟩, rest)
      | _ => none
    else none

/-- Host characters accepted by the model (letters, digits, dot, hyphen,
underscore); the URL standard's forbidden host code points — brackets,
carets, percent-outside-encoding, … — make parsing fail. -/
def isHostChar (c : Char) : Bool :=
  c.isAlpha || c.isDigit || c = '.' || c = '-' || c = '_'

/-- Default port of a special scheme. -/
def defaultPort (sch : String) : Nat := if sch = "https" then 443 else 80

/-- Parse and serialize an authority `host[:port]` for a special scheme:
the host must be nonempty and consist of host characters; the port must
be digits and fit in 16 bits; default and empty ports are dropped.
Returns the serialized authority and the remainder (path/query/fragment). -/
def parseAuthority (sch : String) (l : List Char) : Option (String × List Char) :=
  let hp := l.span (fun c => !(c = '/' || c = '?' || c = '#'))
  let hostPort := hp.1.span (fun c => c != ':')
  if hostPort.1 = [] ∨ !hostPort.1.all isHostChar then none
  else
    let hostStr : String := ⟨hostPort.1.map Char.toLower⟩
    match hostPort.2 with
    | [] => some (hostStr, hp.2)
    | _ :: pds =>
      if pds.all Char.isDigit then
        if pds = [] then some (hostStr, hp.2)
        else
          let pn := radixVal 10 pds
          if pn < 65536 then
            if pn = defaultPort sch then some (hostStr, hp.2)
            else some (hostStr ++ ":" ++ toString pn, hp.2)
          else none
      else none

/-- Serialize the part after the authority: an absolute URL always shows
at least the root path `/`. -/
def pathPart (l : List Char) : String :=
  match l with
  | [] => "/"
  | '/' :: _ => ⟨l⟩
  | _ => "/" ++ ⟨l⟩

/-- An absolute URL of a special scheme: the standard's
special-authority-ignore-slashes state skips any run of slashes before
the authority. -/
def resolveAbsSpecial (sch : String) (rest : List Char) : Option String :=
  (parseAuthority sch (rest.dropWhile (fun c => c = '/' || c = '\\'))).map
    (fun p => sch ++ "://" ++ p.1 ++ pathPart p.2)

/-- Parse a base that is an http(s) origin (the only bases the source
passes: `targetUrl.origin`), yielding its scheme and serialized origin. -/
def parseBaseOrigin (base : String) : Option (String × String) :=
  match parseScheme base.data with
  | some (bsch, '/' :: '/' :: br) =>
    if bsch = "http" ∨ bsch = "https" then
      match parseAuthority bsch br with
      | some (auth, pathEtc) =>
        if pathEtc = [] ∨ pathEtc = ['/'] then some (bsch, bsch ++ "://" ++ auth)
        else none
      | none => none
    else none
  | _ => none

/-- Resolve a schemeless (or same-special-scheme) reference against an
origin base: protocol-relative references re-parse an authority,
path-absolute references append to the origin, and any other reference
(query, fragment, or a relative path, the base path being `/`) hangs off
the root. -/
def resolveRel (bsch borigin : String) (i : List Char) : Option String :=
  match i with
  | [] => some (borigin ++ "/")
  | '/' :: '/' :: r =>
    (parseAuthority bsch r).map (fun p => bsch ++ "://" ++ p.1 ++ pathPart p.2)
  | '/' :: _ => some (borigin ++ ⟨i⟩)
  | _ => some (borigin ++ "/" ++ ⟨i⟩)

/-- Model of the WHATWG URL constructor `new URL(input, base).toString()`
restricted to the shapes the source exercises: the base is an http(s)
origin; http(s) inputs parse an authority (an input carrying the base's
scheme but no `//` is treated as relative, as the standard's
special-relative-or-authority state does); inputs with another scheme are
kept as opaque `scheme:rest`; schemeless inputs resolve against the base.
Dot-segment normalization and percent-encoding are outside the model. -/
def jsURL (input base : String) : Option String :=
  match parseBaseOrigin base with
  | none => none
  | some (bsch, borigin) =>
    match parseScheme input.data with
    | some (sch, rest) =>
      if sch = "http" ∨ sch = "https" then
        if sch = bsch ∧ rest.take 2 ≠ ['/', '/'] then resolveRel bsch borigin rest
        else resolveAbsSpecial sch rest
      else some (sch ++ ":" ++ ⟨rest⟩)
    | none => resolveRel bsch borigin input.data

/-- The link collection loop
`while ((aMatch = aRegex.exec(html)) && links.length < 50)`: each matched
anchor has its body tag-stripped and its raw href resolved against
`baseOrigin`; a failed resolution is caught and the anchor skipped. -/
def collectLinks (base : String) : Nat → List Char → List LinkEntry → List LinkEntry
  | 0, _, acc => acc
  | fuel + 1, s, acc =>
    match findNextAnchor s with
    | none => acc
    | some (rawHref, rawBody, rest) =>
      if acc.length ≥ 50 then acc
      else
        match jsURL rawHref base with
        | some href => collectLinks base fuel rest (acc ++ [⟨href, stripTags rawBody⟩])
        | none => collectLinks base fuel rest acc

/-- The deduplication loop of `extractData`: first-seen-only by `href`
with a `seen` set, truncated to the first 10 unique entries (the loop
breaks as soon as `unique` reaches 10). -/
def dedupLoop : List LinkEntry → List String → List LinkEntry → List LinkEntry
  | [], _, unique => unique
  | l :: rest, seen, unique =>
    if l.href ∈ seen then dedupLoop rest seen unique
    else
      if (unique ++ [l]).length ≥ 10 then unique ++ [l]
      else dedupLoop rest (l.href :: seen) (unique ++ [l])

/-- The value `extractData` returns. -/
structure ExtractionResult where
  title : Option String
  headings : List String
  links : List LinkEntry
deriving DecidableEq

/-- The link candidates collected by the anchor scan of `extractData`
(the `links` array before deduplication). -/
def linkCandidates (html base : String) : List LinkEntry :=
  collectLinks base (html.data.length + 1) html.data []

/-- The `extractData` function of the source. -/
def extractData (html base : String) : ExtractionResult :=
  { title := (findTitle html.data).map stripTags
  , headings := collectHeadings (html.data.length + 1) html.data []
  , links := dedupLoop (linkCandidates html base) [] [] }

/-- First-seen-only filter by resolved href: the unbounded core of the
deduplication loop of `extractData` (the loop additionally truncates to
10 entries). -/
def firstSeen : List LinkEntry → List String → List LinkEntry
  | [], _ => []
  | l :: rest, seen =>
    if l.href ∈ seen then firstSeen rest seen
    else l :: firstSeen rest (l.href :: seen)

/-- A minimal resolvable anchor (`href` value `a`, empty body). -/
def goodAnchor : List Char := "<a href=a></a>".data

/-- An anchor whose href value `//[` fails URL resolution (protocol-relative
reference with an invalid host). -/
def badAnchor : List Char := "<a href=//[></a>".data

/-- A final, distinctively named resolvable anchor (`href` value `z`). -/
def lastAnchor : List Char := "<a href=z></a>".data

/-- Concatenation of `n` copies of `goodAnchor`. -/
def repGood : Nat → List Char
  | 0 => []
  | n + 1 => goodAnchor ++ repGood n

/-- A document with 51 anchors: one unresolvable, then 49 resolvable
copies, then a distinctive resolvable final anchor. -/
def c7Html : String := ⟨badAnchor ++ (repGood 49 ++ lastAnchor)⟩

/-! ## Lemmas about the robots policy evaluator -/

theorem isPrefixOf_iff_sub {l₁ l₂ : List Char} :
    l₁.isPrefixOf l₂ = true ↔ l₁ <+: l₂ := by
  induction l₁ generalizing l₂ with
  | nil => simp
  | cons a as ih =>
    cases l₂ with
    | nil => simp [List.isPrefixOf]
    | cons b bs =>
      rw [List.isPrefixOf_cons₂, Bool.and_eq_true, beq_iff_eq, ih,
        List.cons_prefix_cons]

theorem allowedLoop_eq_false_iff (p : String) (ds : List String) :
    allowedLoop p ds = false ↔ ∃ d ∈ ds, d ≠ "" ∧ jsStartsWith p d = true := by
  induction ds with
  | nil => simp [allowedLoop]
  | cons d rest ih =>
    simp only [allowedLoop]
    split_ifs with hd hs
    · subst hd
      rw [ih]
      constructor
      · rintro ⟨e, he, hne, hsw⟩; exact ⟨e, List.mem_cons_of_mem _ he, hne, hsw⟩
      · rintro ⟨e, he, hne, hsw⟩
        rcases List.mem_cons.mp he with h | h
        · exact absurd h.symm hne.symm
        · exact ⟨e, h, hne, hsw⟩
    · constructor
      · intro _; exact ⟨d, List.mem_cons_self _ _, hd, hs⟩
      · intro _; rfl
    · rw [ih]
      constructor
      · rintro ⟨e, he, hne, hsw⟩; exact ⟨e, List.mem_cons_of_mem _ he, hne, hsw⟩
      · rintro ⟨e, he, hne, hsw⟩
        rcases List.mem_cons.mp he with h | h
        · subst h; exact absurd hsw hs
        · exact ⟨e, h, hne, hsw⟩

theorem not_mem_disallows_robotsStep (st : RState) (line : String)
    (h : "" ∉ st.disallows) : "" ∉ (robotsStep st line).disallows := by
  unfold robotsStep
  split_ifs with h1 h2 h3 h4 h5 h6
  · exact h
  · exact h
  · exact h
  · intro hc
    rcases List.mem_append.mp hc with hx | hx
    · exact h hx
    · exact h5 (List.mem_singleton.mp hx).symm
  · exact h
  · split
    · exact h
    · exact h
  · exact h

theorem not_mem_disallows_foldl (lines : List String) (st : RState)
    (h : "" ∉ st.disallows) : "" ∉ (lines.foldl robotsStep st).disallows := by
  induction lines generalizing st with
  | nil => exact h
  | cons l rest ih => exact ih _ (not_mem_disallows_robotsStep st l h)

/-- Claim C1. For every parsed robots policy and every path `p`, `evaluate`
returns `allowed:false` if and only if some entry `d` of
`disallowedPrefixes` is a literal string prefix of `p` (plain prefix
match); if no entry is a prefix of `p` it returns `allowed:true`, and
empty prefixes never block any path (for an arbitrary policy value the
evaluator skips empty entries, and parsing never produces one). -/
theorem C1_allowed_iff_disallow_matches :
    (∀ txt p : String,
        robotsAllowed (policyOfText txt) p = false ↔
          ∃ d ∈ (policyOfText txt).disallows, jsStartsWith p d = true) ∧
    (∀ txt : String, "" ∉ (policyOfText txt).disallows) ∧
    (∀ (pol : RobotsPolicy) (p : String),
        robotsAllowed pol p = false ↔
          ∃ d ∈ pol.disallows, d ≠ "" ∧ jsStartsWith p d = true) ∧
    (∀ p d : String, jsStartsWith p d = true ↔ d.data <+: p.data) := by
  have hempty : ∀ txt : String, "" ∉ (policyOfText txt).disallows := by
    intro txt
    exact not_mem_disallows_foldl _ _ (by simp)
  refine ⟨?_, hempty, ?_, ?_⟩
  · intro txt p
    rw [robotsAllowed, allowedLoop_eq_false_iff]
    constructor
    · rintro ⟨d, hd, _, hsw⟩; exact ⟨d, hd, hsw⟩
    · rintro ⟨d, hd, hsw⟩
      refine ⟨d, hd, ?_, hsw⟩
      rintro rfl; exact hempty txt hd
  · intro pol p
    exact allowedLoop_eq_false_iff p pol.disallows
  · intro p d
    exact isPrefixOf_iff_sub

theorem C1_witness :
    robotsAllowed (policyOfText "User-agent: *\nDisallow: /p") "/p/q" = false :=
  (C1_allowed_iff_disallow_matches.1 "User-agent: *\nDisallow: /p" "/p/q").mpr
    ⟨"/p", by decide, by decide⟩

/-- Claim C2. If the robots.txt retrieval fails (any exception) or returns a
non-success status, `fetchRobots` yields the fully permissive policy:
every path is allowed and no crawl delay is reported.  (The embedding is
a total function, mirroring that the source catches every exception and
never raises to its caller.) -/
theorem C2_fail_open :
    ∀ (o : FetchOutcome) (p : String),
      (o = FetchOutcome.failure ∨ ∃ body, o = FetchOutcome.response false body) →
        robotsAllowed (fetchRobots o) p = true ∧
          (fetchRobots o).crawlDelay = none := by
  rintro o p (rfl | ⟨body, rfl⟩)
  · exact ⟨rfl, rfl⟩
  · exact ⟨rfl, rfl⟩

theorem C2_witness :
    robotsAllowed
        (fetchRobots (FetchOutcome.response false "User-agent: *\nDisallow: /"))
        "/any" = true ∧
      (fetchRobots FetchOutcome.failure).crawlDelay = none :=
  ⟨(C2_fail_open (FetchOutcome.response false "User-agent: *\nDisallow: /") "/any"
      (Or.inr ⟨_, rfl⟩)).1,
   (C2_fail_open FetchOutcome.failure "/any" (Or.inl rfl)).2⟩

/-! ## The user-agent group state machine -/

theorem ciEq_unique {k a b : String} (ha : ciEq k a = true) (hb : ciEq k b = true) :
    a.data.map Char.toLower = b.data.map Char.toLower :=
  (eq_of_beq ha).symm.trans (eq_of_beq hb)

theorem ciEq_false_of {k a b : String} (ha : ciEq k a = true)
    (hne : a.data.map Char.toLower ≠ b.data.map Char.toLower) : ciEq k b = false := by
  cases h : ciEq k b
  · rfl
  · exact absurd (ciEq_unique ha h) hne

/-- Claim C3. A `User-agent` directive with value exactly `*` opens (or
re-opens) the applicable group and any other `User-agent` value closes
it, in both cases leaving the accumulated data untouched; non-`User-agent`
lines are ignored while the group is closed; a nonempty `Disallow` inside
the open group appends to the running sequence; the disallow sequence only
ever grows (no reset), and processing is a left fold, so separate
`User-agent: *` blocks accumulate into one sequence in order of
appearance — as the concrete two-block document shows. -/
theorem C3_group_state_machine :
    (∀ (st : RState) (line : String),
        ¬(line = "" ∨ line.data.head? = some '#') →
        ciEq (splitColon2 line.data).1 "User-agent" = true →
        (splitColon2 line.data).2 = "*" →
        robotsStep st line = { st with inStar := true }) ∧
    (∀ (st : RState) (line : String),
        ¬(line = "" ∨ line.data.head? = some '#') →
        ciEq (splitColon2 line.data).1 "User-agent" = true →
        (splitColon2 line.data).2 ≠ "*" →
        robotsStep st line = { st with inStar := false }) ∧
    (∀ (st : RState) (line : String),
        st.inStar = false →
        ciEq (splitColon2 line.data).1 "User-agent" = false →
        robotsStep st line = st) ∧
    (∀ (st : RState) (line : String),
        st.inStar = true →
        ¬(line = "" ∨ line.data.head? = some '#') →
        ciEq (splitColon2 line.data).1 "Disallow" = true →
        (splitColon2 line.data).2 ≠ "" →
        robotsStep st line =
          { st with disallows := st.disallows ++ [(splitColon2 line.data).2] }) ∧
    (∀ (st : RState) (line : String),
        st.disallows <+: (robotsStep st line).disallows) ∧
    (∀ (ls₁ ls₂ : List String) (st : RState),
        (ls₁ ++ ls₂).foldl robotsStep st = ls₂.foldl robotsStep (ls₁.foldl robotsStep st)) ∧
    (policyOfText
        "User-agent: *\nDisallow: /a\nUser-agent: bot\nDisallow: /x\nUser-agent: *\nDisallow: /b").disallows
      = ["/a", "/b"] := by
  refine ⟨?_, ?_, ?_, ?_, ?_, ?_, by decide⟩
  · intro st line h1 h2 h3
    simp only [robotsStep, if_neg h1, h2, if_true, h3, decide_eq_true_eq]
    simp
  · intro st line h1 h2 h3
    simp only [robotsStep, if_neg h1, h2, if_true]
    simp [h3]
  · intro st line h1 h2
    unfold robotsStep
    split_ifs with ha hb <;> first
      | rfl
      | (exact absurd hb (by simp [h2]))
  · intro st line h1 h2 h3 h4
    have hUA : ciEq (splitColon2 line.data).1 "User-agent" = false :=
      ciEq_false_of h3 (by decide)
    simp only [robotsStep, if_neg h2, hUA, Bool.false_eq_true, if_false, h1,
      if_neg (by simp : ¬(true = false)), h3, if_true, if_pos h4]
  · intro st line
    unfold robotsStep
    split_ifs <;> first
      | exact List.prefix_refl _
      | exact List.prefix_append _ _
      | (split <;> exact List.prefix_refl _)
  · intro ls₁ ls₂ st
    exact List.foldl_append robotsStep st ls₁ ls₂

theorem C3_witness :
    robotsStep ⟨false, ["/a"], none⟩ "User-agent: *"
      = { RState.mk false ["/a"] none with inStar := true } :=
  C3_group_state_machine.1 ⟨false, ["/a"], none⟩ "User-agent: *"
    (by decide) (by decide) (by decide)

/-! ## Crawl delay -/

/-- Claim C4, counterexample. `Crawl-delay: -5` parses as the number `-5`,
so the stored crawl delay is negative, refuting the claim that
`crawlDelaySeconds` is always non-negative when present. -/
theorem C4_counterexample :
    (policyOfText "User-agent: *\nCrawl-delay: -5").crawlDelay = some ⟨-5, 0⟩ ∧
    JsNum.toRat ⟨-5, 0⟩ < 0 := by
  refine ⟨by decide, ?_⟩
  simp [JsNum.toRat]

/-- Claim C4, amended. A `Crawl-delay` value parseable as a number — of
either sign — sets/overwrites `crawlDelaySeconds` (the last parseable
value wins), and a non-numeric value is silently ignored, leaving any
prior value unchanged; the concrete documents show `10` surviving a later
`abc` and `7` overwriting an earlier `10`. -/
theorem C4_crawl_delay_semantics :
    (∀ (st : RState) (line : String) (n : JsNum),
        st.inStar = true →
        ¬(line = "" ∨ line.data.head? = some '#') →
        ciEq (splitColon2 line.data).1 "Crawl-delay" = true →
        jsNumber (splitColon2 line.data).2 = some n →
        robotsStep st line = { st with crawlDelay := some n }) ∧
    (∀ (st : RState) (line : String),
        st.inStar = true →
        ciEq (splitColon2 line.data).1 "Crawl-delay" = true →
        jsNumber (splitColon2 line.data).2 = none →
        robotsStep st line = st) ∧
    (policyOfText "User-agent: *\nCrawl-delay: 10\nCrawl-delay: abc").crawlDelay
        = some ⟨10, 0⟩ ∧
    (policyOfText "User-agent: *\nCrawl-delay: 10\nCrawl-delay: 7").crawlDelay
        = some ⟨7, 0⟩ := by
  refine ⟨?_, ?_, by decide, by decide⟩
  · intro st line n h1 h2 h3 h4
    have hUA : ciEq (splitColon2 line.data).1 "User-agent" = false :=
      ciEq_false_of h3 (by decide)
    have hDis : ciEq (splitColon2 line.data).1 "Disallow" = false :=
      ciEq_false_of h3 (by decide)
    simp only [robotsStep, if_neg h2, hUA, Bool.false_eq_true, if_false, h1,
      if_neg (by simp : ¬(true = false)), hDis, h3, if_true, h4]
  · intro st line h1 h2 h3
    by_cases hline : line = "" ∨ line.data.head? = some '#'
    · simp only [robotsStep, if_pos hline]
    · have hUA : ciEq (splitColon2 line.data).1 "User-agent" = false :=
        ciEq_false_of h2 (by decide)
      have hDis : ciEq (splitColon2 line.data).1 "Disallow" = false :=
        ciEq_false_of h2 (by decide)
      simp only [robotsStep, if_neg hline, hUA, Bool.false_eq_true, if_false, h1,
        if_neg (by simp : ¬(true = false)), hDis, h2, if_true, h3]

theorem C4_witness :
    robotsStep ⟨true, [], some ⟨10, 0⟩⟩ "Crawl-delay: 7"
      = { RState.mk true [] (some ⟨10, 0⟩) with crawlDelay := some ⟨7, 0⟩ } :=
  C4_crawl_delay_semantics.1 ⟨true, [], some ⟨10, 0⟩⟩ "Crawl-delay: 7" ⟨7, 0⟩
    rfl (by decide) (by decide) (by decide)

/-! ## Link deduplication -/

theorem dedupLoop_eq_take (ls : List LinkEntry) :
    ∀ (seen : List String) (unique : List LinkEntry), unique.length < 10 →
      dedupLoop ls seen unique
        = unique ++ (firstSeen ls seen).take (10 - unique.length) := by
  induction ls with
  | nil => intro seen unique _; simp [dedupLoop, firstSeen]
  | cons l rest ih =>
    intro seen unique h
    simp only [dedupLoop, firstSeen]
    split_ifs with hmem hfull
    · exact ih seen unique h
    · have h9 : unique.length = 9 := by
        simp only [List.length_append, List.length_singleton] at hfull; omega
      have h1 : 10 - unique.length = 1 := by omega
      rw [h1]
      simp
    · have h10 : (unique ++ [l]).length < 10 := by
        simp only [List.length_append, List.length_singleton] at hfull ⊢; omega
      rw [ih _ _ h10]
      have hsub : 10 - unique.length = (10 - (unique ++ [l]).length) + 1 := by
        simp only [List.length_append, List.length_singleton]; omega
      rw [hsub, List.take_succ_cons, List.append_assoc]
      rfl

theorem firstSeen_sublist (ls : List LinkEntry) :
    ∀ seen : List String, (firstSeen ls seen).Sublist ls := by
  induction ls with
  | nil => intro seen; simp [firstSeen]
  | cons l rest ih =>
    intro seen
    simp only [firstSeen]
    split_ifs with hmem
    · exact (ih seen).cons l
    · exact (ih (l.href :: seen)).cons₂ l

theorem firstSeen_first_occurrence (ls : List LinkEntry) :
    ∀ (seen : List String) (l : LinkEntry), l ∈ firstSeen ls seen →
      l.href ∉ seen ∧ (ls.filter (fun x => x.href == l.href)).head? = some l := by
  induction ls with
  | nil => intro seen l h; simp [firstSeen] at h
  | cons a rest ih =>
    intro seen l h
    simp only [firstSeen] at h
    split_ifs at h with hmem
    · obtain ⟨hns, hrest⟩ := ih seen l h
      have hne : (a.href == l.href) = false := by
        cases heq : a.href == l.href
        · rfl
        · exact absurd (eq_of_beq heq ▸ hmem) hns
      refine ⟨hns, ?_⟩
      rw [List.filter_cons, hne]
      exact hrest
    · rcases List.mem_cons.mp h with rfl | h
      · refine ⟨hmem, ?_⟩
        rw [List.filter_cons, beq_self_eq_true]
        rfl
      · obtain ⟨hns, hrest⟩ := ih (a.href :: seen) l h
        have hne : (a.href == l.href) = false := by
          cases heq : a.href == l.href
          · rfl
          · exact absurd (List.mem_cons_self _ _) (eq_of_beq heq ▸ hns)
        refine ⟨fun hc => hns (List.mem_cons_of_mem _ hc), ?_⟩
        rw [List.filter_cons, hne]
        exact hrest

theorem firstSeen_hrefs_nodup (ls : List LinkEntry) :
    ∀ seen : List String, ((firstSeen ls seen).map LinkEntry.href).Nodup := by
  induction ls with
  | nil => intro seen; simp [firstSeen]
  | cons a rest ih =>
    intro seen
    simp only [firstSeen]
    split_ifs with hmem
    · exact ih seen
    · simp only [List.map_cons, List.nodup_cons]
      refine ⟨?_, ih (a.href :: seen)⟩
      intro hc
      obtain ⟨l, hl, hhl⟩ := List.mem_map.mp hc
      obtain ⟨hns, _⟩ := firstSeen_first_occurrence rest (a.href :: seen) l hl
      exact hns (hhl ▸ List.mem_cons_self _ _)

/-- Claim C5. The links of the extraction result are exactly the collected
candidates filtered to first-seen-only by resolved href and truncated to
the first 10 unique entries: the result has at most 10 entries, carries
pairwise distinct hrefs, is a sublist of the candidate sequence (hence
preserves document order), and each surviving entry is the first
candidate carrying its href (so its text is the first occurrence's). -/
theorem C5_dedup_first_seen :
    ∀ html base : String,
      (extractData html base).links
          = (firstSeen (linkCandidates html base) []).take 10 ∧
      (extractData html base).links.length ≤ 10 ∧
      (extractData html base).links.Sublist (linkCandidates html base) ∧
      ((extractData html base).links.map LinkEntry.href).Nodup ∧
      ∀ l ∈ (extractData html base).links,
        ((linkCandidates html base).filter (fun x => x.href == l.href)).head?
          = some l := by
  intro html base
  have hlinks : (extractData html base).links
      = (firstSeen (linkCandidates html base) []).take 10 := by
    show dedupLoop (linkCandidates html base) [] []
        = (firstSeen (linkCandidates html base) []).take 10
    have h := dedupLoop_eq_take (linkCandidates html base) [] [] (by simp)
    simpa using h
  refine ⟨hlinks, ?_, ?_, ?_, ?_⟩
  · rw [hlinks, List.length_take]
    exact min_le_left _ _
  · rw [hlinks]
    exact (List.take_sublist _ _).trans (firstSeen_sublist _ [])
  · rw [hlinks, List.map_take]
    exact (firstSeen_hrefs_nodup (linkCandidates html base) []).sublist
      (List.take_sublist _ _)
  · intro l hl
    rw [hlinks] at hl
    exact (firstSeen_first_occurrence (linkCandidates html base) [] l
      (List.mem_of_mem_take hl)).2

theorem C5_witness :
    ((linkCandidates "<a href=/a>first</a><a href=/a>second</a>" "https://e.com").filter
        (fun x => x.href == LinkEntry.href ⟨"https://e.com/a", "first"⟩)).head?
      = some ⟨"https://e.com/a", "first"⟩ :=
  (C5_dedup_first_seen "<a href=/a>first</a><a href=/a>second</a>" "https://e.com").2.2.2.2
    ⟨"https://e.com/a", "first"⟩ (by decide)

/-! ## Headings -/

theorem collectHeadings_length_le (fuel : Nat) :
    ∀ (s : List Char) (acc : List String), acc.length ≤ 5 →
      (collectHeadings fuel s acc).length ≤ 5 := by
  induction fuel with
  | zero => intro s acc h; exact h
  | succ n ih =>
    intro s acc h
    simp only [collectHeadings]
    match hfind : findNextHeading s with
    | none => exact h
    | some (body, rest) =>
      by_cases hfull : acc.length ≥ 5
      · simp only [if_pos hfull]; exact h
      · simp only [if_neg hfull]
        exact ih rest (acc ++ [stripTags body]) (by simp; omega)

theorem collectHeadings_image (fuel : Nat) :
    ∀ (s : List Char) (acc : List String),
      ∃ raws : List (List Char),
        collectHeadings fuel s acc = acc ++ raws.map (fun b => stripTags b) := by
  induction fuel with
  | zero => intro s acc; exact ⟨[], by simp [collectHeadings]⟩
  | succ n ih =>
    intro s acc
    simp only [collectHeadings]
    match hfind : findNextHeading s with
    | none => exact ⟨[], by simp⟩
    | some (body, rest) =>
      by_cases hfull : acc.length ≥ 5
      · simp only [if_pos hfull]; exact ⟨[], by simp⟩
      · simp only [if_neg hfull]
        obtain ⟨raws, hraws⟩ := ih rest (acc ++ [stripTags body])
        exact ⟨body :: raws, by simp [hraws]⟩

/-- Claim C6. Heading extraction is bounded by 5 for every input, each
collected value is the tag-stripped, whitespace-collapsed body of a
matched heading element, a document with 7 `<h2>` elements yields exactly
the first 5 in document order, an `<h1>`/`<h2>`/`<h3>` element is
collected precisely when its closing tag repeats the opening tag's own
level, and levels outside 1–3 are not collected. -/
theorem C6_headings_bounded_matched :
    (∀ html base : String, (extractData html base).headings.length ≤ 5) ∧
    (∀ (fuel : Nat) (s : List Char),
        ∃ raws : List (List Char),
          collectHeadings fuel s [] = raws.map (fun b => stripTags b)) ∧
    ((extractData
        "<h2>a1</h2><h2>b2</h2><h2>c3</h2><h2>d4</h2><h2>e5</h2><h2>f6</h2><h2>g7</h2>"
        "x").headings = ["a1", "b2", "c3", "d4", "e5"]) ∧
    (∀ i ∈ ["1", "2", "3"], ∀ j ∈ ["1", "2", "3"],
        (extractData ("<h" ++ i ++ ">x</h" ++ j ++ ">") "x").headings
          = if i = j then ["x"] else []) ∧
    ((extractData "<h4>x</h4>" "x").headings = []) := by
  refine ⟨?_, ?_, by decide, by decide, by decide⟩
  · intro html base
    exact collectHeadings_length_le _ _ [] (by simp)
  · intro fuel s
    obtain ⟨raws, hraws⟩ := collectHeadings_image fuel s []
    exact ⟨raws, by simpa using hraws⟩

theorem C6_witness :
    (extractData ("<h" ++ "1" ++ ">x</h" ++ "2" ++ ">") "x").headings
      = if ("1" : String) = "2" then ["x"] else [] :=
  C6_headings_bounded_matched.2.2.2.1 "1" (by decide) "2" (by decide)

/-! ## The link-candidate bound -/

theorem collectLinks_step (base : String) (fuel : Nat) (s : List Char) (acc : List LinkEntry) :
    collectLinks base (fuel + 1) s acc
      = match findNextAnchor s with
        | none => acc
        | some (rawHref, rawBody, rest) =>
          if acc.length ≥ 50 then acc
          else match jsURL rawHref base with
            | some href => collectLinks base fuel rest (acc ++ [⟨href, stripTags rawBody⟩])
            | none => collectLinks base fuel rest acc := rfl

theorem collectLinks_length_le (base : String) (fuel : Nat) :
    ∀ (s : List Char) (acc : List LinkEntry), acc.length ≤ 50 →
      (collectLinks base fuel s acc).length ≤ 50 := by
  induction fuel with
  | zero => intro s acc h; exact h
  | succ n ih =>
    intro s acc h
    simp only [collectLinks]
    match findNextAnchor s with
    | none => exact h
    | some (rawHref, rawBody, rest) =>
      by_cases hfull : acc.length ≥ 50
      · simp only [if_pos hfull]; exact h
      · simp only [if_neg hfull]
        match jsURL rawHref base with
        | some href =>
          exact ih rest (acc ++ [⟨href, stripTags rawBody⟩]) (by simp; omega)
        | none => exact ih rest acc h

/-- Claim C7, amended. The anchor scan collects at most 50 *resolved*
candidates: the loop's bound counts the entries of the `links` array
(anchors whose hrefs fail resolution do not count), and deduplication is
applied only afterwards, so the bound is independent of it. -/
theorem C7_link_scan_bound :
    (∀ (base : String) (fuel : Nat) (s : List Char) (acc : List LinkEntry),
        acc.length ≤ 50 → (collectLinks base fuel s acc).length ≤ 50) ∧
    (∀ html base : String, (linkCandidates html base).length ≤ 50) ∧
    (∀ html base : String,
        (extractData html base).links = dedupLoop (linkCandidates html base) [] []) := by
  refine ⟨collectLinks_length_le, ?_, fun html base => rfl⟩
  intro html base
  exact collectLinks_length_le base _ html.data [] (by simp)

theorem C7_link_scan_bound_witness :
    (collectLinks "http://e.com" 3 "<a href=a></a>".data []).length ≤ 50 :=
  C7_link_scan_bound.1 "http://e.com" 3 "<a href=a></a>".data [] (by simp)

theorem findNextAnchor_goodAnchor (rest : List Char) :
    findNextAnchor (goodAnchor ++ rest) = some ("a", [], rest) := rfl

theorem findNextAnchor_badAnchor (rest : List Char) :
    findNextAnchor (badAnchor ++ rest) = some ("//[", [], rest) := rfl

theorem findNextAnchor_lastAnchor (rest : List Char) :
    findNextAnchor (lastAnchor ++ rest) = some ("z", [], rest) := rfl

theorem jsURL_slashes_bracket : jsURL "//[" "http://e.com" = none := by decide

theorem jsURL_a : jsURL "a" "http://e.com" = some "http://e.com/a" := by decide

theorem jsURL_z : jsURL "z" "http://e.com" = some "http://e.com/z" := by decide

theorem repGood_length (n : Nat) : (repGood n).length = 14 * n := by
  induction n with
  | zero => rfl
  | succ k ih =>
    show (goodAnchor ++ repGood k).length = 14 * (k + 1)
    rw [List.length_append, ih]
    show 14 + 14 * k = 14 * (k + 1)
    omega

theorem collectLinks_repGood :
    ∀ (n f : Nat) (acc : List LinkEntry) (rest : List Char),
      acc.length + n ≤ 50 →
      collectLinks "http://e.com" (f + n) (repGood n ++ rest) acc
        = collectLinks "http://e.com" f rest
            (acc ++ List.replicate n ⟨"http://e.com/a", ""⟩) := by
  intro n
  induction n with
  | zero => intro f acc rest _; simp [repGood]
  | succ k ih =>
    intro f acc rest h
    have hassoc : repGood (k + 1) ++ rest = goodAnchor ++ (repGood k ++ rest) := by
      show (goodAnchor ++ repGood k) ++ rest = goodAnchor ++ (repGood k ++ rest)
      exact List.append_assoc _ _ _
    rw [hassoc]
    have hfa : f + (k + 1) = (f + k) + 1 := rfl
    rw [hfa]
    simp only [collectLinks, findNextAnchor_goodAnchor]
    rw [if_neg (by omega)]
    simp only [jsURL_a]
    have hst : stripTags [] = "" := rfl
    rw [hst]
    rw [ih f (acc ++ [LinkEntry.mk "http://e.com/a" ""]) rest
      (by simp only [List.length_append, List.length_singleton]; omega)]
    simp [List.replicate_succ, List.append_assoc]

theorem badAnchor_repGood_length : (badAnchor ++ (repGood 49 ++ lastAnchor)).length = 716 := by
  rw [List.length_append, List.length_append, repGood_length]
  rfl

/-- Claim C7, counterexample. `c7Html` contains 51 anchors: the first has
an unresolvable href and the following 50 resolve.  The candidate list
reaches 50 entries and contains the entry contributed by the 51st anchor
(`href=z`), so the scan examined all 51 raw candidates; had scanning
stopped once 50 raw candidates were examined — independent of resolution,
as the claim states — at most 49 entries could exist and none from the
51st anchor.  The bound therefore counts resolved candidates, not raw
ones. -/
theorem C7_counterexample :
    linkCandidates c7Html "http://e.com"
        = List.replicate 49 (LinkEntry.mk "http://e.com/a" "")
            ++ [LinkEntry.mk "http://e.com/z" ""] ∧
    LinkEntry.mk "http://e.com/z" "" ∈ linkCandidates c7Html "http://e.com" ∧
    (linkCandidates c7Html "http://e.com").length = 50 := by
  have hmain : linkCandidates c7Html "http://e.com"
      = List.replicate 49 (LinkEntry.mk "http://e.com/a" "")
          ++ [LinkEntry.mk "http://e.com/z" ""] := by
    show collectLinks "http://e.com" (c7Html.data.length + 1) c7Html.data [] = _
    have hdata : c7Html.data = badAnchor ++ (repGood 49 ++ lastAnchor) := rfl
    rw [hdata, badAnchor_repGood_length, collectLinks_step]
    simp only [findNextAnchor_badAnchor]
    rw [if_neg (by simp)]
    simp only [jsURL_slashes_bracket]
    rw [show (716 : Nat) = 667 + 49 by norm_num]
    rw [collectLinks_repGood 49 667 [] lastAnchor (by simp)]
    rw [show (667 : Nat) = 666 + 1 by norm_num, collectLinks_step]
    rw [show (lastAnchor : List Char) = lastAnchor ++ [] from (List.append_nil _).symm]
    simp only [findNextAnchor_lastAnchor]
    rw [if_neg (by simp)]
    simp only [jsURL_z]
    rw [show stripTags [] = "" from rfl]
    rw [show (666 : Nat) = 665 + 1 by norm_num, collectLinks_step]
    simp only [findNextAnchor]
    rw [List.nil_append]
  refine ⟨hmain, ?_, ?_⟩
  · rw [hmain]; simp
  · rw [hmain]; simp

/-! ## Line splitting at colons -/

theorem takeWhile_colon (k v : List Char) (hk : ':' ∉ k) :
    (k ++ ':' :: v).takeWhile (fun c => c != ':') = k := by
  induction k with
  | nil => simp
  | cons a k ih =>
    have ha : (a != ':') = true := by
      simp only [bne_iff_ne, ne_eq]
      intro h; exact hk (h ▸ List.mem_cons_self _ _)
    simp only [List.cons_append, List.takeWhile_cons, ha, if_true]
    rw [ih (fun hc => hk (List.mem_cons_of_mem _ hc))]

theorem dropWhile_colon (k v : List Char) (hk : ':' ∉ k) :
    (k ++ ':' :: v).dropWhile (fun c => c != ':') = ':' :: v := by
  induction k with
  | nil => simp
  | cons a k ih =>
    have ha : (a != ':') = true := by
      simp only [bne_iff_ne, ne_eq]
      intro h; exact hk (h ▸ List.mem_cons_self _ _)
    simp only [List.cons_append, List.dropWhile_cons, ha, if_true]
    exact ih (fun hc => hk (List.mem_cons_of_mem _ hc))

theorem span_colon_append (k v : List Char) (hk : ':' ∉ k) :
    (k ++ ':' :: v).span (fun c => c != ':') = (k, ':' :: v) := by
  rw [List.span_eq_take_drop, takeWhile_colon k v hk, dropWhile_colon k v hk]

theorem span_no_colon (l : List Char) (h : ':' ∉ l) :
    l.span (fun c => c != ':') = (l, []) := by
  rw [List.span_eq_take_drop]
  induction l with
  | nil => simp
  | cons a k ih =>
    have ha : (a != ':') = true := by
      simp only [bne_iff_ne, ne_eq]
      intro hc; exact h (hc ▸ List.mem_cons_self _ _)
    have hrec := ih (fun hc => h (List.mem_cons_of_mem _ hc))
    simp only [List.takeWhile_cons, List.dropWhile_cons, ha, if_true] at hrec ⊢
    rw [(Prod.mk.injEq _ _ _ _).mp hrec |>.1, (Prod.mk.injEq _ _ _ _).mp hrec |>.2]

/-- Claim C8, counterexample. The line `Disallow: /a:b` contributes the
prefix `/a`, not `/a:b`: `split(':', 2)` keeps only the text between the
first and the second colon, so a value is not the entire remainder of the
line after the first colon. -/
theorem C8_counterexample :
    splitColon2 "Disallow: /a:b".data = ("Disallow", "/a") ∧
    (policyOfText "User-agent: *\nDisallow: /a:b").disallows = ["/a"] := by
  constructor
  · decide
  · decide

/-- Claim C8, amended. A non-blank, non-comment robots line is split at its
first colon into a directive name and a value, the value being the text
strictly between the first and the second colon — the entire remainder of
the line only when the line contains no second colon — trimmed of
surrounding whitespace (a line without any colon has the empty value). -/
theorem C8_split_colon_semantics :
    (∀ l : List Char, ':' ∉ l → splitColon2 l = (jsTrim ⟨l⟩, "")) ∧
    (∀ k v : List Char, ':' ∉ k → ':' ∉ v →
        splitColon2 (k ++ ':' :: v) = (jsTrim ⟨k⟩, jsTrim ⟨v⟩)) ∧
    (∀ k v w : List Char, ':' ∉ k → ':' ∉ v →
        splitColon2 (k ++ ':' :: (v ++ ':' :: w)) = (jsTrim ⟨k⟩, jsTrim ⟨v⟩)) := by
  refine ⟨?_, ?_, ?_⟩
  · intro l h
    simp only [splitColon2, span_no_colon l h]
  · intro k v hk hv
    simp only [splitColon2, span_colon_append k v hk, span_no_colon v hv]
  · intro k v w hk hv
    simp only [splitColon2, span_colon_append k (v ++ ':' :: w) hk,
      span_colon_append v w hv]

theorem C8_witness :
    splitColon2 ("Disallow".data ++ ':' :: (" /a".data ++ ':' :: "b".data))
      = (jsTrim ⟨"Disallow".data⟩, jsTrim ⟨" /a".data⟩) :=
  C8_split_colon_semantics.2.2 "Disallow".data " /a".data "b".data
    (by decide) (by decide)

/-! ## Totality and skipping of unresolvable anchors -/

theorem collectHeadings_step (fuel : Nat) (s : List Char) (acc : List String) :
    collectHeadings (fuel + 1) s acc
      = match findNextHeading s with
        | none => acc
        | some (body, rest) =>
          if acc.length ≥ 5 then acc
          else collectHeadings fuel rest (acc ++ [stripTags body]) := rfl

theorem collectLinks_entries_resolved (base : String) (fuel : Nat) :
    ∀ (s : List Char) (acc : List LinkEntry),
      (∀ l ∈ acc, ∃ raw : String, jsURL raw base = some l.href) →
      ∀ l ∈ collectLinks base fuel s acc,
        ∃ raw : String, jsURL raw base = some l.href := by
  induction fuel with
  | zero => intro s acc hacc; exact hacc
  | succ n ih =>
    intro s acc hacc
    rw [collectLinks_step]
    match findNextAnchor s with
    | none => exact hacc
    | some (rawHref, rawBody, rest) =>
      by_cases hfull : acc.length ≥ 50
      · simp only [if_pos hfull]; exact hacc
      · simp only [if_neg hfull]
        match hurl : jsURL rawHref base with
        | some href =>
          refine ih rest (acc ++ [⟨href, stripTags rawBody⟩]) ?_
          intro l hl
          rcases List.mem_append.mp hl with hx | hx
          · exact hacc l hx
          · rw [List.mem_singleton.mp hx]
            exact ⟨rawHref, hurl⟩
        | none => exact ih rest acc hacc

/-- Claim C9. `extractData` is a total function (the embedding returns a
result for every markup and base, mirroring that the source catches the
only throwing operation): an anchor whose raw href fails to resolve
contributes no entry and scanning continues with the remainder; every
collected entry's href comes from a successful resolution; and when a
scan finds no match, the corresponding field is `none`/empty rather than
an error. -/
theorem C9_skip_unresolvable_continue :
    (∀ (base : String) (fuel : Nat) (s : List Char) (acc : List LinkEntry)
        (rawHref : String) (rawBody rest : List Char),
        findNextAnchor s = some (rawHref, rawBody, rest) →
        jsURL rawHref base = none →
        acc.length < 50 →
        collectLinks base (fuel + 1) s acc = collectLinks base fuel rest acc) ∧
    (∀ html base : String, ∀ l ∈ linkCandidates html base,
        ∃ raw : String, jsURL raw base = some l.href) ∧
    (∀ html base : String, findTitle html.data = none →
        (extractData html base).title = none) ∧
    (∀ html base : String, findNextHeading html.data = none →
        (extractData html base).headings = []) ∧
    (∀ html base : String, findNextAnchor html.data = none →
        (extractData html base).links = []) := by
  refine ⟨?_, ?_, ?_, ?_, ?_⟩
  · intro base fuel s acc rawHref rawBody rest hfind hurl hlt
    rw [collectLinks_step]
    simp only [hfind]
    rw [if_neg (by omega)]
    simp only [hurl]
  · intro html base
    exact collectLinks_entries_resolved base _ html.data [] (by simp)
  · intro html base h
    show (findTitle html.data).map stripTags = none
    rw [h]
    rfl
  · intro html base h
    show collectHeadings (html.data.length + 1) html.data [] = []
    rw [collectHeadings_step]
    simp only [h]
  · intro html base h
    show dedupLoop (collectLinks base (html.data.length + 1) html.data []) [] [] = []
    rw [collectLinks_step]
    simp only [h]
    rfl

theorem C9_witness :
    collectLinks "http://e.com" (35 + 1) (badAnchor ++ "<a href=/g>t</a>".data) []
      = collectLinks "http://e.com" 35 "<a href=/g>t</a>".data [] :=
  C9_skip_unresolvable_continue.1 "http://e.com" 35
    (badAnchor ++ "<a href=/g>t</a>".data) [] "//[" [] "<a href=/g>t</a>".data
    (findNextAnchor_badAnchor "<a href=/g>t</a>".data) jsURL_slashes_bracket
    (by simp)

/-! ## The path tested by the scrape handler -/

/-- Claim C10. The path the handler tests against the robots policy is the
target URL's `pathname` concatenated with its `search` (query) string, so
a disallow prefix can match into the query portion; the `hash` (fragment)
component never influences the tested path — two URLs differing only in
fragment yield the same path, and the concrete examples show a prefix
matching across the `?` boundary while a fragment-shaped prefix never
blocks. -/
theorem C10_request_path_query_no_fragment :
    (∀ u : JsUrlParts, requestPath u = u.pathname ++ u.search) ∧
    (∀ p s h h' : String, requestPath ⟨p, s, h⟩ = requestPath ⟨p, s, h'⟩) ∧
    (robotsAllowed ⟨["/p?q"], none⟩ (requestPath ⟨"/p", "?q=1", "#frag"⟩) = false) ∧
    (robotsAllowed ⟨["/p#"], none⟩ (requestPath ⟨"/p", "", "#frag"⟩) = true) := by
  refine ⟨?_, ?_, by decide, by decide⟩
  · intro u
    unfold requestPath
    split_ifs with h
    · rw [h]
    · rfl
  · intro p s h h'
    rfl
